import Mathlib

/-!
Shallow embedding of `src/stdio_protocol.rs` from the esbuild-host-rust
repository: the `Value` tagged union, the `Packet` struct, and the
`Packet::encode` / `Packet::decode` wire codec.

Modelling conventions:
* A Rust byte (`u8`) is a `Nat`; genuine byte buffers have all elements `< 256`.
* `u32` arithmetic is `Nat` arithmetic with explicit `% 2^32` where the Rust
  code casts or wraps.
* `i32` is an `Int` in `[-2^31, 2^31)`.
* A Rust `String` is its UTF-8 byte list; the type invariant (valid UTF-8) and
  the `BTreeMap` invariant (strictly ascending keys) are captured by the
  well-formedness predicate `wfV` below.
* Rust code that can panic (slice indexing out of bounds, `unwrap`,
  `panic!("Invalid packet")`) is modelled with `PResult`: `PResult.panicked`
  means the Rust code panics, `PResult.ok` is a normal return.  `Packet::decode`
  in the source returns `Self` and signals every malformed input by panicking;
  it has no error-return path.
-/

/-- Result of running a piece of Rust code that may panic: either the returned
value, or a panic (out-of-bounds slice index, `unwrap` on `Err`, or an explicit
`panic!`). -/
inductive PResult (α : Type) where
  | ok (a : α) : PResult α
  | panicked : PResult α
deriving Repr

/-- The `Value` enum of `stdio_protocol.rs`: `Null`, `Boolean(bool)`,
`Number(i32)`, `String(String)` (held as its UTF-8 bytes),
`Uint8Array(Vec<u8>)`, `Array(Vec<Value>)`, and `Map(BTreeMap<String, Value>)`
(held as its ascending-key entry list, which is how a `BTreeMap` iterates). -/
inductive Value where
  | null : Value
  | boolean (b : Bool) : Value
  | number (n : Int) : Value
  | string (s : List Nat) : Value
  | uint8Array (b : List Nat) : Value
  | array (xs : List Value) : Value
  | map (m : List (List Nat × Value)) : Value

/-- The `Packet` struct: `id: u32`, `is_request: bool`, `value: Value`. -/
structure Packet where
  id : Nat
  is_request : Bool
  value : Value

/-- `as u32` on a `usize`/wider value: keep the low 32 bits. -/
def toU32 (n : Nat) : Nat := n % 4294967296

/-- `value as u32` for an `i32` value: the two's-complement bit pattern. -/
def intToU32 (n : Int) : Nat := (n % 4294967296).toNat

/-- `value as i32` for a `u32` cell: reinterpret the bit pattern as signed. -/
def u32ToI32 (u : Nat) : Int :=
  if u < 2147483648 then (u : Int) else (u : Int) - 4294967296

/-- `write_u32`: the four little-endian bytes of a `u32` value. -/
def writeU32 (value : Nat) : List Nat :=
  [value % 256, value / 256 % 256, value / 65536 % 256, value / 16777216 % 256]

/-- `read_u32`: `LE::read_u32` reads the first four bytes little-endian and
returns the rest (`&bytes[4..]`); fewer than four bytes is a panic. -/
def readU32 : List Nat → PResult (Nat × List Nat)
  | b0 :: b1 :: b2 :: b3 :: rest =>
      .ok (b0 + 256 * b1 + 65536 * b2 + 16777216 * b3, rest)
  | _ => .panicked

/-- `read_length_prefixed`: read a `u32` length, then split off that many
bytes (`&next[..len]` / `&next[len..]`); too few bytes is a panic. -/
def readLengthPrefixed (bytes : List Nat) : PResult (List Nat × List Nat) :=
  match readU32 bytes with
  | .panicked => .panicked
  | .ok (len, next) =>
      if len ≤ next.length then .ok (next.take len, next.drop len) else .panicked

/-- Byte-wise lexicographic strict order on byte lists; this is how Rust's
`Ord` for `String` compares keys, hence the `BTreeMap` key order. -/
def lexLt : List Nat → List Nat → Bool
  | [], [] => false
  | [], _ :: _ => true
  | _ :: _, [] => false
  | a :: as, b :: bs => if a < b then true else if b < a then false else lexLt as bs

/-- The `BTreeMap` invariant on the entry list: every key is strictly
lexicographically below every later key. -/
def keysSorted : List (List Nat × Value) → Bool
  | [] => true
  | (k, _) :: rest => rest.all (fun e => lexLt k e.1) && keysSorted rest

/-- `BTreeMap::insert` on the ascending entry list: place the new entry at its
ordered position, replacing the value if the key is already present. -/
def btreeInsert (m : List (List Nat × Value)) (k : List Nat) (v : Value) :
    List (List Nat × Value) :=
  match m with
  | [] => [(k, v)]
  | (k0, v0) :: rest =>
      if lexLt k k0 then (k, v) :: (k0, v0) :: rest
      else if k = k0 then (k, v) :: rest
      else (k0, v0) :: btreeInsert rest k v

/-- Repeated `BTreeMap::insert`, in list order. -/
def insertAll (acc : List (List Nat × Value)) (l : List (List Nat × Value)) :
    List (List Nat × Value) :=
  l.foldl (fun acc e => btreeInsert acc e.1 e.2) acc

/-- `BTreeMap::from_iter`: insert every pair in order into an empty map. -/
def fromIter (l : List (List Nat × Value)) : List (List Nat × Value) :=
  insertAll [] l

/-- UTF-8 validity of a byte list, exactly the check `String::from_utf8`
performs (RFC 3629 well-formed byte sequences). -/
def utf8Valid : List Nat → Bool
  | [] => true
  | b0 :: rest =>
      if b0 < 128 then utf8Valid rest
      else if 194 ≤ b0 ∧ b0 ≤ 223 then
        match rest with
        | b1 :: rest2 => 128 ≤ b1 && b1 ≤ 191 && utf8Valid rest2
        | [] => false
      else if b0 = 224 then
        match rest with
        | b1 :: b2 :: rest3 =>
            160 ≤ b1 && b1 ≤ 191 && 128 ≤ b2 && b2 ≤ 191 && utf8Valid rest3
        | _ => false
      else if 225 ≤ b0 ∧ b0 ≤ 236 then
        match rest with
        | b1 :: b2 :: rest3 =>
            128 ≤ b1 && b1 ≤ 191 && 128 ≤ b2 && b2 ≤ 191 && utf8Valid rest3
        | _ => false
      else if b0 = 237 then
        match rest with
        | b1 :: b2 :: rest3 =>
            128 ≤ b1 && b1 ≤ 159 && 128 ≤ b2 && b2 ≤ 191 && utf8Valid rest3
        | _ => false
      else if 238 ≤ b0 ∧ b0 ≤ 239 then
        match rest with
        | b1 :: b2 :: rest3 =>
            128 ≤ b1 && b1 ≤ 191 && 128 ≤ b2 && b2 ≤ 191 && utf8Valid rest3
        | _ => false
      else if b0 = 240 then
        match rest with
        | b1 :: b2 :: b3 :: rest4 =>
            144 ≤ b1 && b1 ≤ 191 && 128 ≤ b2 && b2 ≤ 191 && 128 ≤ b3 && b3 ≤ 191 &&
              utf8Valid rest4
        | _ => false
      else if 241 ≤ b0 ∧ b0 ≤ 243 then
        match rest with
        | b1 :: b2 :: b3 :: rest4 =>
            128 ≤ b1 && b1 ≤ 191 && 128 ≤ b2 && b2 ≤ 191 && 128 ≤ b3 && b3 ≤ 191 &&
              utf8Valid rest4
        | _ => false
      else if b0 = 244 then
        match rest with
        | b1 :: b2 :: b3 :: rest4 =>
            128 ≤ b1 && b1 ≤ 143 && 128 ≤ b2 && b2 ≤ 191 && 128 ≤ b3 && b3 ≤ 191 &&
              utf8Valid rest4
        | _ => false
      else false

mutual

/-- Model-level well-formedness: the `Value` trees that actually arise as Rust
values.  Numbers are in `i32` range, strings and map keys are valid UTF-8,
byte buffers hold bytes, map entry lists satisfy the `BTreeMap` ascending-key
invariant, and every length fits the `u32` wire length field. -/
def wfV : Value → Bool
  | .null => true
  | .boolean _ => true
  | .number n => decide (-2147483648 ≤ n) && decide (n < 2147483648)
  | .string s => utf8Valid s && decide (s.length < 4294967296)
  | .uint8Array b => b.all (fun x => decide (x < 256)) && decide (b.length < 4294967296)
  | .array xs => decide (xs.length < 4294967296) && wfItems xs
  | .map m => decide (m.length < 4294967296) && keysSorted m && wfEntries m

/-- Well-formedness of every element of a `Vec<Value>`. -/
def wfItems : List Value → Bool
  | [] => true
  | x :: xs => wfV x && wfItems xs

/-- Well-formedness of every entry of a map: UTF-8 key of `u32` length plus a
well-formed value. -/
def wfEntries : List (List Nat × Value) → Bool
  | [] => true
  | (k, v) :: rest =>
      utf8Valid k && decide (k.length < 4294967296) && wfV v && wfEntries rest

end

mutual

/-- The `visit` closure of `Packet::encode`: append the tagged binary encoding
of one `Value` (tag byte, then variant payload, recursing into arrays and
maps). -/
def encodeValue : Value → List Nat
  | .null => [0]
  | .boolean b => [1, if b then 1 else 0]
  | .number n => 2 :: writeU32 (intToU32 n)
  | .string s => 3 :: (writeU32 (toU32 s.length) ++ s)
  | .uint8Array b => 4 :: (writeU32 (toU32 b.length) ++ b)
  | .array xs => 5 :: (writeU32 (toU32 xs.length) ++ encodeItems xs)
  | .map m => 6 :: (writeU32 (toU32 m.length) ++ encodeEntries m)

/-- The array loop of `Packet::encode`'s `visit`: child encodings in order. -/
def encodeItems : List Value → List Nat
  | [] => []
  | x :: xs => encodeValue x ++ encodeItems xs

/-- The map loop of `Packet::encode`'s `visit`: for each entry in the
`BTreeMap`'s ascending iteration order, a length-prefixed key then the value
encoding. -/
def encodeEntries : List (List Nat × Value) → List Nat
  | [] => []
  | (k, v) :: rest =>
      writeU32 (toU32 k.length) ++ k ++ encodeValue v ++ encodeEntries rest

end

/-- The id/direction cell written by `Packet::encode`: `self.id << 1` in `u32`
arithmetic, with the low bit set when the packet is a response. -/
def idCell (id : Nat) (rq : Bool) : Nat :=
  if rq then (id <<< 1) % 4294967296 else ((id <<< 1) % 4294967296) ||| 1

/-- The body built by `Packet::encode` before the frame prefix: the four
id-cell bytes followed by the recursive value encoding. -/
def encodeBody (p : Packet) : List Nat :=
  writeU32 (idCell p.id p.is_request) ++ encodeValue p.value

/-- `Packet::encode`: the body's byte length as a little-endian `u32` frame
prefix, followed by the body. -/
def Packet.encode (p : Packet) : List Nat :=
  writeU32 (toU32 (encodeBody p).length) ++ encodeBody p

/-- The array loop of `Packet::decode`'s `visit`: run the element parser
`n` times, collecting values in order. -/
def loopN (step : List Nat → PResult (Value × List Nat)) :
    Nat → List Nat → PResult (List Value × List Nat)
  | 0, bytes => .ok ([], bytes)
  | n + 1, bytes =>
      match step bytes with
      | .panicked => .panicked
      | .ok (v, next) =>
          match loopN step n next with
          | .panicked => .panicked
          | .ok (vs, rest) => .ok (v :: vs, rest)

/-- The map loop of `Packet::decode`'s `visit`: `n` times, read a
length-prefixed key, `String::from_utf8(..).unwrap()` it (panicking on invalid
UTF-8), parse the value, and `BTreeMap::insert` it. -/
def loopM (step : List Nat → PResult (Value × List Nat)) :
    Nat → List Nat → List (List Nat × Value) →
    PResult (List (List Nat × Value) × List Nat)
  | 0, bytes, acc => .ok (acc, bytes)
  | n + 1, bytes, acc =>
      match readLengthPrefixed bytes with
      | .panicked => .panicked
      | .ok (k, next) =>
          if utf8Valid k then
            match step next with
            | .panicked => .panicked
            | .ok (v, next2) => loopM step n next2 (btreeInsert acc k v)
          else .panicked

/-- One layer of `Packet::decode`'s `visit`: read the tag byte (`bytes[0]`
panics on an empty slice), dispatch on it, and recurse through `rec` for
arrays and maps; a tag outside `0..=6` is `panic!("Invalid packet")`. -/
def visitStep (rec : List Nat → PResult (Value × List Nat)) :
    List Nat → PResult (Value × List Nat)
  | [] => .panicked
  | kind :: rest =>
      if kind = 0 then .ok (.null, rest)
      else if kind = 1 then
        match rest with
        | [] => .panicked
        | b :: next => .ok (.boolean (b != 0), next)
      else if kind = 2 then
        match readU32 rest with
        | .panicked => .panicked
        | .ok (v, next) => .ok (.number (u32ToI32 v), next)
      else if kind = 3 then
        match readLengthPrefixed rest with
        | .panicked => .panicked
        | .ok (s, next) =>
            if utf8Valid s then .ok (.string s, next) else .panicked
      else if kind = 4 then
        match readLengthPrefixed rest with
        | .panicked => .panicked
        | .ok (b, next) => .ok (.uint8Array b, next)
      else if kind = 5 then
        match readU32 rest with
        | .panicked => .panicked
        | .ok (len, next) =>
            match loopN rec len next with
            | .panicked => .panicked
            | .ok (vs, rest2) => .ok (.array vs, rest2)
      else if kind = 6 then
        match readU32 rest with
        | .panicked => .panicked
        | .ok (len, next) =>
            match loopM rec len next [] with
            | .panicked => .panicked
            | .ok (m, rest2) => .ok (.map m, rest2)
      else .panicked

/-- `Packet::decode`'s recursive `visit`, made total with a recursion-depth
fuel.  `Packet.decode` below always supplies more fuel than any parse can
use (each recursion level consumes at least one input byte first), so
`.panicked` coincides with the Rust code panicking. -/
def visit : Nat → List Nat → PResult (Value × List Nat)
  | 0 => fun _ => .panicked
  | fuel + 1 => visitStep (visit fuel)

/-- `Packet::decode`: read the id cell (direction = low bit, id = the cell
shifted right once), parse one value, and `panic!("Invalid packet")` unless
the cursor is exactly at the end of the buffer. -/
def Packet.decode (bytes : List Nat) : PResult Packet :=
  match readU32 bytes with
  | .panicked => .panicked
  | .ok (cell, next) =>
      match visit (bytes.length + 1) next with
      | .panicked => .panicked
      | .ok (value, rest) =>
          if rest.isEmpty then
            .ok { id := cell >>> 1, is_request := (cell &&& 1) == 0, value := value }
          else .panicked

/-! ### Basic facts about the integer helpers -/

theorem writeU32_length (v : Nat) : (writeU32 v).length = 4 := by
  simp [writeU32]

theorem readU32_writeU32 (v : Nat) (rest : List Nat) :
    readU32 (writeU32 v ++ rest) = .ok (v % 4294967296, rest) := by
  simp only [writeU32, List.cons_append, List.nil_append, readU32]
  congr 1
  congr 1
  omega

theorem readU32_short (l : List Nat) (h : l.length < 4) : readU32 l = .panicked := by
  match l with
  | [] => rfl
  | [_] => rfl
  | [_, _] => rfl
  | [_, _, _] => rfl
  | _ :: _ :: _ :: _ :: _ => exact absurd h (by simp)

theorem toU32_eq_of_lt {n : Nat} (h : n < 4294967296) : toU32 n = n := by
  simp [toU32, Nat.mod_eq_of_lt h]

theorem intToU32_lt (n : Int) : intToU32 n < 4294967296 := by
  have h : (0:Int) < 4294967296 := by norm_num
  have := Int.emod_nonneg n (by norm_num : (4294967296:Int) ≠ 0)
  have := Int.emod_lt_of_pos n h
  simp only [intToU32]
  omega

theorem u32ToI32_intToU32 (n : Int) (h1 : -2147483648 ≤ n) (h2 : n < 2147483648) :
    u32ToI32 (intToU32 n) = n := by
  simp only [intToU32, u32ToI32]
  split <;> omega

/-! ### The lexicographic key order -/

theorem lexLt_irrefl (a : List Nat) : lexLt a a = false := by
  induction a with
  | nil => rfl
  | cons x xs ih => simp [lexLt, ih]

theorem lexLt_asymm {a b : List Nat} (h : lexLt a b = true) : lexLt b a = false := by
  induction a generalizing b with
  | nil => cases b with
    | nil => simp [lexLt] at h
    | cons y ys => simp [lexLt]
  | cons x xs ih =>
    cases b with
    | nil => simp [lexLt] at h
    | cons y ys =>
      simp only [lexLt] at h ⊢
      rcases Nat.lt_trichotomy x y with hlt | heq | hgt
      · simp [hlt, Nat.not_lt.mpr (Nat.le_of_lt hlt), Nat.lt_irrefl]
      · subst heq
        simp only [Nat.lt_irrefl, if_false] at h ⊢
        exact ih h
      · simp [hgt, Nat.not_lt.mpr (Nat.le_of_lt hgt)] at h

theorem lexLt_ne {a b : List Nat} (h : lexLt a b = true) : a ≠ b := by
  intro he
  subst he
  simp [lexLt_irrefl] at h

theorem lexLt_cases (a b : List Nat) :
    lexLt a b = true ∨ a = b ∨ lexLt b a = true := by
  induction a generalizing b with
  | nil => cases b with
    | nil => simp
    | cons y ys => simp [lexLt]
  | cons x xs ih =>
    cases b with
    | nil => simp [lexLt]
    | cons y ys =>
      rcases Nat.lt_trichotomy x y with hlt | heq | hgt
      · left; simp [lexLt, hlt]
      · subst heq
        rcases ih ys with h1 | h2 | h3
        · left; simp [lexLt, h1]
        · right; left; rw [h2]
        · right; right; simp [lexLt, h3]
      · right; right; simp [lexLt, hgt]

theorem lexLt_trans {a b c : List Nat} (h1 : lexLt a b = true)
    (h2 : lexLt b c = true) : lexLt a c = true := by
  induction a generalizing b c with
  | nil =>
    cases c with
    | nil =>
      cases b with
      | nil => simp [lexLt] at h1
      | cons y ys => simp [lexLt] at h2
    | cons z zs => simp [lexLt]
  | cons x xs ih =>
    cases b with
    | nil => simp [lexLt] at h1
    | cons y ys =>
      cases c with
      | nil => simp [lexLt] at h2
      | cons z zs =>
        simp only [lexLt] at h1 h2 ⊢
        rcases Nat.lt_trichotomy x y with hxy | hxy | hxy <;>
          rcases Nat.lt_trichotomy y z with hyz | hyz | hyz
        · have : x < z := Nat.lt_trans hxy hyz
          simp [this]
        · subst hyz; simp [hxy]
        · simp [hxy, Nat.not_lt.mpr (Nat.le_of_lt hxy)] at h2 ⊢
          omega
        · subst hxy; simp [hyz]
        · subst hxy; subst hyz
          simp only [Nat.lt_irrefl, if_false] at h1 h2 ⊢
          exact ih h1 h2
        · subst hxy
          simp [Nat.not_lt.mpr (Nat.le_of_lt hyz)] at h2
          omega
        · simp [Nat.not_lt.mpr (Nat.le_of_lt hxy)] at h1
          omega
        · subst hyz
          simp [Nat.not_lt.mpr (Nat.le_of_lt hxy)] at h1
          omega
        · simp [Nat.not_lt.mpr (Nat.le_of_lt hxy)] at h1
          omega

/-! ### `BTreeMap` insertion lemmas -/

theorem btreeInsert_mem {m : List (List Nat × Value)} {k : List Nat} {v : Value}
    {e : List Nat × Value} (h : e ∈ btreeInsert m k v) : e = (k, v) ∨ e ∈ m := by
  induction m with
  | nil => simpa [btreeInsert] using h
  | cons p rest ih =>
    obtain ⟨k0, v0⟩ := p
    by_cases h1 : lexLt k k0 = true
    · simp only [btreeInsert, h1, if_true, List.mem_cons] at h
      simp only [List.mem_cons]
      tauto
    · by_cases h2 : k = k0
      · subst h2
        simp only [btreeInsert, h1] at h
        simp only [if_false, Bool.false_eq_true, if_true, List.mem_cons] at h
        simp only [List.mem_cons]
        tauto
      · have hrw : btreeInsert ((k0, v0) :: rest) k v = (k0, v0) :: btreeInsert rest k v := by
          simp [btreeInsert, h1, h2]
        rw [hrw] at h
        simp only [List.mem_cons] at h
        simp only [List.mem_cons]
        rcases h with h | h
        · tauto
        · rcases ih h with h3 | h3 <;> tauto

theorem keysSorted_btreeInsert {m : List (List Nat × Value)} {k : List Nat}
    {v : Value} (h : keysSorted m = true) : keysSorted (btreeInsert m k v) = true := by
  induction m with
  | nil => simp [btreeInsert, keysSorted]
  | cons p rest ih =>
    obtain ⟨k0, v0⟩ := p
    simp only [keysSorted, Bool.and_eq_true, List.all_eq_true] at h
    obtain ⟨hall, hrest⟩ := h
    simp only [btreeInsert]
    split
    · rename_i hlt
      simp only [keysSorted, Bool.and_eq_true, List.all_eq_true]
      refine ⟨fun e he => ?_, hall, hrest⟩
      rcases List.mem_cons.mp he with he | he
      · subst he; exact hlt
      · exact lexLt_trans hlt (hall e he)
    · split
      · rename_i hne heq
        subst heq
        simp only [keysSorted, Bool.and_eq_true, List.all_eq_true]
        exact ⟨hall, hrest⟩
      · rename_i hne1 hne2
        simp only [keysSorted, Bool.and_eq_true, List.all_eq_true]
        refine ⟨fun e he => ?_, ih hrest⟩
        rcases btreeInsert_mem he with he2 | he2
        · subst he2
          rcases lexLt_cases k0 k with hc | hc | hc
          · exact hc
          · exact absurd hc.symm hne2
          · exact absurd hc (by simp [hne1])
        · exact hall e he2

theorem btreeInsert_append {acc : List (List Nat × Value)} {k : List Nat}
    {v : Value} (h : ∀ e ∈ acc, lexLt e.1 k = true) :
    btreeInsert acc k v = acc ++ [(k, v)] := by
  induction acc with
  | nil => rfl
  | cons p rest ih =>
    obtain ⟨k0, v0⟩ := p
    have h0 : lexLt k0 k = true := h (k0, v0) (by simp)
    have h1 : lexLt k k0 = false := lexLt_asymm h0
    have h2 : k ≠ k0 := fun he => lexLt_ne h0 he.symm
    simp only [btreeInsert, h1, Bool.false_eq_true, if_false, h2, List.cons_append]
    rw [ih (fun e he => h e (by simp [he]))]

theorem keysSorted_append_parts {acc m : List (List Nat × Value)}
    (h : keysSorted (acc ++ m) = true) :
    (∀ a ∈ acc, ∀ b ∈ m, lexLt a.1 b.1 = true) ∧ keysSorted m = true := by
  induction acc with
  | nil => simpa using h
  | cons p rest ih =>
    obtain ⟨k0, v0⟩ := p
    simp only [List.cons_append, keysSorted, Bool.and_eq_true, List.all_eq_true] at h
    obtain ⟨hall, hrest⟩ := h
    obtain ⟨ih1, ih2⟩ := ih hrest
    refine ⟨fun a ha b hb => ?_, ih2⟩
    rcases List.mem_cons.mp ha with ha | ha
    · subst ha
      exact hall b (by simp [hb])
    · exact ih1 a ha b hb

theorem insertAll_sorted_append {m acc : List (List Nat × Value)}
    (h : keysSorted (acc ++ m) = true) : insertAll acc m = acc ++ m := by
  induction m generalizing acc with
  | nil => simp [insertAll]
  | cons p rest ih =>
    obtain ⟨k, v⟩ := p
    obtain ⟨hcross, _⟩ := keysSorted_append_parts h
    have hins : btreeInsert acc k v = acc ++ [(k, v)] :=
      btreeInsert_append (fun e he => hcross e he (k, v) (by simp))
    have hassoc : (acc ++ [(k, v)]) ++ rest = acc ++ (k, v) :: rest := by simp
    simp only [insertAll, List.foldl_cons] at ih ⊢
    rw [hins]
    rw [show ((k, v) :: rest : List (List Nat × Value)) = [(k, v)] ++ rest from rfl,
      ← List.append_assoc] at h
    exact (@ih (acc ++ [(k, v)]) h).trans (by simp)

theorem insertAll_of_sorted {m : List (List Nat × Value)}
    (h : keysSorted m = true) : insertAll [] m = m :=
  insertAll_sorted_append (by simpa using h)

theorem btreeInsert_comm {k1 k2 : List Nat} (hne : k1 ≠ k2)
    (m : List (List Nat × Value)) (v1 v2 : Value) :
    btreeInsert (btreeInsert m k1 v1) k2 v2 =
      btreeInsert (btreeInsert m k2 v2) k1 v1 := by
  have hcore : ∀ a b : List Nat, a ≠ b → lexLt a b = true → ∀ m v1 v2,
      btreeInsert (btreeInsert m a v1) b v2 = btreeInsert (btreeInsert m b v2) a v1 := by
    intro a b hab hlt m v1 v2
    have hba : lexLt b a = false := lexLt_asymm hlt
    induction m with
    | nil =>
      simp only [btreeInsert, hlt, hba, Bool.false_eq_true, if_true, if_false,
        if_neg hab, if_neg (Ne.symm hab)]
    | cons p rest ih =>
      obtain ⟨k0, v0⟩ := p
      rcases lexLt_cases a k0 with hak | hak | hak
      · have hne_a : a ≠ k0 := lexLt_ne hak
        by_cases hbk : lexLt b k0 = true
        · have hne_b : b ≠ k0 := lexLt_ne hbk
          simp only [btreeInsert, hak, hbk, if_true, hba, Bool.false_eq_true,
            if_false, if_neg (Ne.symm hab), hlt, if_neg hab]
        · rcases lexLt_cases b k0 with hc | hc | hc
          · exact absurd hc hbk
          · subst hc
            simp only [btreeInsert, hak, if_true, hba, Bool.false_eq_true, if_false,
              if_neg (Ne.symm hab), lexLt_irrefl, if_pos rfl, hlt]
          · have hne_b : b ≠ k0 := fun he => lexLt_ne hc he.symm
            simp only [btreeInsert, hak, if_true, hba, Bool.false_eq_true, if_false,
              if_neg (Ne.symm hab), hbk, if_neg hne_b, hlt]
      · subst hak
        have hbk : lexLt b a = false := hba
        simp only [btreeInsert, lexLt_irrefl, Bool.false_eq_true, if_false,
          if_pos rfl, hbk, if_neg (Ne.symm hab), hlt, if_true]
      · have hne_a : a ≠ k0 := fun he => lexLt_ne hak he.symm
        have hka : lexLt a k0 = false := lexLt_asymm hak
        have hkb : lexLt b k0 = false := lexLt_asymm (lexLt_trans hak hlt)
        have hne_b : b ≠ k0 := fun he => lexLt_ne (lexLt_trans hak hlt) he.symm
        simp only [btreeInsert, hka, Bool.false_eq_true, if_false, if_neg hne_a,
          hkb, if_neg hne_b]
        rw [ih]
  rcases lexLt_cases k1 k2 with h | h | h
  · exact hcore k1 k2 hne h m v1 v2
  · exact absurd h hne
  · exact (hcore k2 k1 (Ne.symm hne) h m v2 v1).symm

theorem fromIter_keysSorted (l : List (List Nat × Value)) :
    keysSorted (fromIter l) = true := by
  have haux : ∀ l acc, keysSorted acc = true → keysSorted (insertAll acc l) = true := by
    intro l
    induction l with
    | nil => intro acc h; simpa [insertAll] using h
    | cons p rest ih =>
      intro acc h
      obtain ⟨k, v⟩ := p
      simp only [insertAll, List.foldl_cons] at ih ⊢
      exact ih (btreeInsert acc k v) (keysSorted_btreeInsert h)
  exact haux l [] rfl

theorem fromIter_perm {l1 l2 : List (List Nat × Value)} (hp : l1.Perm l2)
    (hnd : (l1.map Prod.fst).Nodup) : fromIter l1 = fromIter l2 := by
  refine hp.foldl_eq' ?_ []
  intro x hx y hy z
  by_cases hxy : x = y
  · subst hxy; rfl
  · have hkey : x.1 ≠ y.1 := by
      intro he
      exact hxy (List.inj_on_of_nodup_map hnd hx hy he)
    exact btreeInsert_comm hkey z x.2 y.2

/-! ### Structural facts about the encoder -/

theorem encodeValue_length_pos (v : Value) : 1 ≤ (encodeValue v).length := by
  cases v <;> simp [encodeValue]

theorem encodeItems_mem_le {x : Value} {xs : List Value} (h : x ∈ xs) :
    (encodeValue x).length ≤ (encodeItems xs).length := by
  induction xs with
  | nil => simp at h
  | cons y ys ih =>
    rcases List.mem_cons.mp h with h | h
    · subst h; simp [encodeItems]
    · simp only [encodeItems, List.length_append]
      have := ih h
      omega

theorem encodeEntries_mem_le {e : List Nat × Value} {m : List (List Nat × Value)}
    (h : e ∈ m) : (encodeValue e.2).length ≤ (encodeEntries m).length := by
  induction m with
  | nil => simp at h
  | cons p rest ih =>
    obtain ⟨k, v⟩ := p
    rcases List.mem_cons.mp h with h | h
    · subst h; simp [encodeEntries]; omega
    · simp only [encodeEntries, List.length_append]
      have := ih h
      omega

theorem wfItems_mem {xs : List Value} (h : wfItems xs = true) {x : Value}
    (hx : x ∈ xs) : wfV x = true := by
  induction xs with
  | nil => simp at hx
  | cons y ys ih =>
    simp only [wfItems, Bool.and_eq_true] at h
    rcases List.mem_cons.mp hx with hx | hx
    · subst hx; exact h.1
    · exact ih h.2 hx

theorem wfEntries_mem {m : List (List Nat × Value)} (h : wfEntries m = true)
    {e : List Nat × Value} (he : e ∈ m) :
    utf8Valid e.1 = true ∧ e.1.length < 4294967296 ∧ wfV e.2 = true := by
  induction m with
  | nil => simp at he
  | cons p rest ih =>
    obtain ⟨k, v⟩ := p
    simp only [wfEntries, Bool.and_eq_true, decide_eq_true_eq] at h
    rcases List.mem_cons.mp he with he | he
    · subst he; exact ⟨h.1.1.1, h.1.1.2, h.1.2⟩
    · exact ih h.2 he

/-! ### The decoder accepts every encoding (round trip) -/

theorem visit_nil (fuel : Nat) : visit fuel [] = .panicked := by
  cases fuel <;> rfl

theorem loopN_encodeItems {step : List Nat → PResult (Value × List Nat)}
    {xs : List Value}
    (H : ∀ x ∈ xs, ∀ r, step (encodeValue x ++ r) = .ok (x, r)) (rest : List Nat) :
    loopN step xs.length (encodeItems xs ++ rest) = .ok (xs, rest) := by
  induction xs with
  | nil => simp [loopN, encodeItems]
  | cons x xs ih =>
    have h1 : step (encodeValue x ++ (encodeItems xs ++ rest)) =
        .ok (x, encodeItems xs ++ rest) := H x (by simp) _
    have h2 : loopN step xs.length (encodeItems xs ++ rest) = .ok (xs, rest) :=
      ih (fun y hy r => H y (by simp [hy]) r)
    simp only [encodeItems, List.length_cons, List.append_assoc, loopN, h1, h2]

theorem loopM_encodeEntries {step : List Nat → PResult (Value × List Nat)}
    {m : List (List Nat × Value)}
    (H : ∀ e ∈ m, ∀ r, step (encodeValue e.2 ++ r) = .ok (e.2, r))
    (HK : ∀ e ∈ m, utf8Valid e.1 = true ∧ e.1.length < 4294967296)
    (rest : List Nat) (acc : List (List Nat × Value)) :
    loopM step m.length (encodeEntries m ++ rest) acc = .ok (insertAll acc m, rest) := by
  induction m generalizing acc with
  | nil => simp [loopM, encodeEntries, insertAll]
  | cons p m ih =>
    obtain ⟨k, v⟩ := p
    obtain ⟨hk1, hk2⟩ := HK (k, v) (by simp)
    have hlen : toU32 k.length = k.length := toU32_eq_of_lt hk2
    have hread : readLengthPrefixed
        (writeU32 (toU32 k.length) ++ (k ++ (encodeValue v ++ (encodeEntries m ++ rest)))) =
        .ok (k, encodeValue v ++ (encodeEntries m ++ rest)) := by
      simp only [readLengthPrefixed, readU32_writeU32, hlen,
        Nat.mod_eq_of_lt hk2]
      rw [if_pos (by simp)]
      rw [List.take_left, List.drop_left]
    have hstep : step (encodeValue v ++ (encodeEntries m ++ rest)) =
        .ok (v, encodeEntries m ++ rest) := H (k, v) (by simp) _
    have hrec : loopM step m.length (encodeEntries m ++ rest) (btreeInsert acc k v) =
        .ok (insertAll (btreeInsert acc k v) m, rest) :=
      ih (fun e he r => H e (by simp [he]) r) (fun e he => HK e (by simp [he]))
        (btreeInsert acc k v)
    simp only [encodeEntries, List.length_cons, List.append_assoc, loopM, hread,
      hk1, if_true, hstep, hrec]
    simp [insertAll]

theorem visit_encode : ∀ (fuel : Nat) (v : Value) (rest : List Nat),
    wfV v = true → (encodeValue v).length ≤ fuel →
    visit fuel (encodeValue v ++ rest) = .ok (v, rest) := by
  intro fuel
  induction fuel with
  | zero =>
    intro v rest _ hlen
    exact absurd hlen (by have := encodeValue_length_pos v; omega)
  | succ f ih =>
    intro v rest hwf hlen
    cases v with
    | null => simp [encodeValue, visit, visitStep]
    | boolean b =>
      cases b <;> simp [encodeValue, visit, visitStep]
    | number n =>
      simp only [wfV, Bool.and_eq_true, decide_eq_true_eq] at hwf
      have h1 : readU32 (writeU32 (intToU32 n) ++ rest) = .ok (intToU32 n, rest) := by
        rw [readU32_writeU32, Nat.mod_eq_of_lt (intToU32_lt n)]
      simp [encodeValue, visit, visitStep, h1, u32ToI32_intToU32 n hwf.1 hwf.2]
    | string s =>
      simp only [wfV, Bool.and_eq_true, decide_eq_true_eq] at hwf
      obtain ⟨hutf, hslen⟩ := hwf
      have hread : readLengthPrefixed (writeU32 (toU32 s.length) ++ (s ++ rest)) =
          .ok (s, rest) := by
        simp only [readLengthPrefixed, readU32_writeU32, toU32_eq_of_lt hslen,
          Nat.mod_eq_of_lt hslen]
        rw [if_pos (by simp)]
        rw [List.take_left, List.drop_left]
      simp [encodeValue, visit, visitStep, List.append_assoc, hread, hutf]
    | uint8Array b =>
      simp only [wfV, Bool.and_eq_true, decide_eq_true_eq] at hwf
      obtain ⟨_, hblen⟩ := hwf
      have hread : readLengthPrefixed (writeU32 (toU32 b.length) ++ (b ++ rest)) =
          .ok (b, rest) := by
        simp only [readLengthPrefixed, readU32_writeU32, toU32_eq_of_lt hblen,
          Nat.mod_eq_of_lt hblen]
        rw [if_pos (by simp)]
        rw [List.take_left, List.drop_left]
      simp [encodeValue, visit, visitStep, List.append_assoc, hread]
    | array xs =>
      simp only [wfV, Bool.and_eq_true, decide_eq_true_eq] at hwf
      obtain ⟨hxlen, hitems⟩ := hwf
      have hsz : (encodeValue (.array xs)).length = 5 + (encodeItems xs).length := by
        simp [encodeValue, writeU32]
        omega
      have hloop : loopN (visit f) xs.length (encodeItems xs ++ rest) = .ok (xs, rest) := by
        refine loopN_encodeItems (fun x hx r => ?_) rest
        refine ih x r (wfItems_mem hitems hx) ?_
        have := encodeItems_mem_le hx
        omega
      have hread : readU32 (writeU32 (toU32 xs.length) ++ (encodeItems xs ++ rest)) =
          .ok (xs.length, encodeItems xs ++ rest) := by
        rw [readU32_writeU32, toU32_eq_of_lt hxlen, Nat.mod_eq_of_lt hxlen]
      simp [encodeValue, visit, visitStep, List.append_assoc, hread, hloop]
    | map m =>
      simp only [wfV, Bool.and_eq_true, decide_eq_true_eq] at hwf
      obtain ⟨⟨hmlen, hsorted⟩, hentries⟩ := hwf
      have hsz : (encodeValue (.map m)).length = 5 + (encodeEntries m).length := by
        simp [encodeValue, writeU32]
        omega
      have hloop : loopM (visit f) m.length (encodeEntries m ++ rest) [] =
          .ok (insertAll [] m, rest) := by
        refine loopM_encodeEntries (fun e he r => ?_) (fun e he => ?_) rest []
        · refine ih e.2 r (wfEntries_mem hentries he).2.2 ?_
          have := encodeEntries_mem_le he
          omega
        · exact ⟨(wfEntries_mem hentries he).1, (wfEntries_mem hentries he).2.1⟩
      have hread : readU32 (writeU32 (toU32 m.length) ++ (encodeEntries m ++ rest)) =
          .ok (m.length, encodeEntries m ++ rest) := by
        rw [readU32_writeU32, toU32_eq_of_lt hmlen, Nat.mod_eq_of_lt hmlen]
      simp [encodeValue, visit, visitStep, List.append_assoc, hread, hloop,
        insertAll_of_sorted hsorted]

/-! ### The id/direction cell -/

theorem two_mul_lor_one (k : Nat) : (2 * k) ||| 1 = 2 * k + 1 := by
  apply Nat.eq_of_testBit_eq
  intro i
  cases i with
  | zero =>
    simp [Nat.testBit_lor, Nat.testBit_zero, Nat.mul_add_mod, Nat.add_mul_mod_self_left]
  | succ j =>
    rw [Nat.testBit_lor, Nat.testBit_succ, Nat.testBit_succ, Nat.testBit_succ]
    have h1 : (1 : Nat) / 2 = 0 := rfl
    have h2 : (2 * k) / 2 = k := by omega
    have h3 : (2 * k + 1) / 2 = k := by omega
    rw [h1, h2, h3]
    simp [Nat.zero_testBit]

theorem idCell_eq (id : Nat) (rq : Bool) :
    idCell id rq = 2 * (id % 2147483648) + (if rq then 0 else 1) := by
  have h1 : id <<< 1 = 2 * id := by rw [Nat.shiftLeft_eq]; ring
  have h2 : (2 * id) % 4294967296 = 2 * (id % 2147483648) := by
    have := Nat.mul_mod_mul_left 2 id 2147483648
    simpa using this
  cases rq with
  | true => simp [idCell, h1, h2]
  | false => simp [idCell, h1, h2, two_mul_lor_one]

theorem idCell_lt (id : Nat) (rq : Bool) : idCell id rq < 4294967296 := by
  rw [idCell_eq]
  have : id % 2147483648 < 2147483648 := Nat.mod_lt _ (by norm_num)
  cases rq <;> simp <;> omega

theorem idCell_shiftRight (id : Nat) (rq : Bool) :
    idCell id rq >>> 1 = id % 2147483648 := by
  rw [idCell_eq, Nat.shiftRight_eq_div_pow]
  cases rq
  · simp
    omega
  · simp

theorem idCell_and_one (id : Nat) (rq : Bool) :
    ((idCell id rq &&& 1) == 0) = rq := by
  rw [idCell_eq, Nat.and_one_is_mod]
  cases rq <;> simp [Nat.mul_add_mod]

theorem idCell_mod_two (id : Nat) (rq : Bool) :
    ((idCell id rq % 2) == 0) = rq := by
  rw [idCell_eq]
  cases rq <;> simp [Nat.mul_add_mod]

/-! ### Decoding an encoded packet -/

theorem decode_encodeBody (id : Nat) (rq : Bool) (v : Value) (hwf : wfV v = true) :
    Packet.decode (encodeBody ⟨id, rq, v⟩) =
      .ok ⟨id % 2147483648, rq, v⟩ := by
  have hlen : (encodeBody ⟨id, rq, v⟩).length = 4 + (encodeValue v).length := by
    simp [encodeBody, writeU32]
    omega
  have hcell : idCell id rq % 4294967296 = idCell id rq :=
    Nat.mod_eq_of_lt (idCell_lt id rq)
  have hvisit : visit ((writeU32 (idCell id rq)).length + (encodeValue v).length + 1)
      (encodeValue v) = .ok (v, []) := by
    have := visit_encode ((writeU32 (idCell id rq)).length + (encodeValue v).length + 1)
      v [] hwf (by simp [writeU32_length]; omega)
    simpa using this
  simp only [Packet.decode, encodeBody]
  rw [readU32_writeU32, hcell]
  simp [hvisit, idCell_shiftRight, idCell_mod_two, idCell_and_one]

theorem encode_drop_four (p : Packet) : (Packet.encode p).drop 4 = encodeBody p := by
  simp [Packet.encode, writeU32]

/-! ### More fuel never changes a successful parse -/

theorem loopN_mono {rec rec2 : List Nat → PResult (Value × List Nat)}
    (h : ∀ b r, rec b = .ok r → rec2 b = .ok r) :
    ∀ {n : Nat} {bytes : List Nat} {r : List Value × List Nat},
    loopN rec n bytes = .ok r → loopN rec2 n bytes = .ok r := by
  intro n
  induction n with
  | zero => intro bytes r hr; simpa [loopN] using hr
  | succ m ih =>
    intro bytes r hr
    simp only [loopN] at hr ⊢
    rcases hs : rec bytes with ⟨⟨v, next⟩⟩ | _
    · have hs2 := h _ _ hs
      simp only [hs] at hr
      simp only [hs2]
      rcases hl : loopN rec m next with ⟨⟨vs, rest⟩⟩ | _
      · simp only [hl] at hr
        simp only [ih hl]
        exact hr
      · simp [hl] at hr
    · simp [hs] at hr

theorem loopM_mono {rec rec2 : List Nat → PResult (Value × List Nat)}
    (h : ∀ b r, rec b = .ok r → rec2 b = .ok r) :
    ∀ {n : Nat} {bytes : List Nat} {acc : List (List Nat × Value)}
    {r : List (List Nat × Value) × List Nat},
    loopM rec n bytes acc = .ok r → loopM rec2 n bytes acc = .ok r := by
  intro n
  induction n with
  | zero => intro bytes acc r hr; simpa [loopM] using hr
  | succ m ih =>
    intro bytes acc r hr
    simp only [loopM] at hr ⊢
    rcases hk : readLengthPrefixed bytes with ⟨⟨k, next⟩⟩ | _
    · simp only [hk] at hr ⊢
      by_cases hu : utf8Valid k = true
      · rw [if_pos hu] at hr ⊢
        rcases hs : rec next with ⟨⟨v, next2⟩⟩ | _
        · have hs2 := h _ _ hs
          simp only [hs] at hr
          simp only [hs2]
          exact ih hr
        · simp [hs] at hr
      · rw [if_neg hu] at hr; simp at hr
    · simp [hk] at hr

theorem visitStep_mono {rec rec2 : List Nat → PResult (Value × List Nat)}
    (h : ∀ b r, rec b = .ok r → rec2 b = .ok r)
    {bytes : List Nat} {r : Value × List Nat}
    (hs : visitStep rec bytes = .ok r) : visitStep rec2 bytes = .ok r := by
  cases bytes with
  | nil => exact absurd hs (by simp [visitStep])
  | cons kind rest =>
    by_cases h0 : kind = 0
    · simpa [visitStep, h0] using hs
    by_cases h1 : kind = 1
    · cases rest with
      | nil => exact absurd hs (by simp [visitStep, h0, h1])
      | cons b next => simpa [visitStep, h0, h1] using hs
    by_cases h2 : kind = 2
    · rcases hr : readU32 rest with ⟨⟨v2, next⟩⟩ | _ <;>
        simp only [visitStep, h0, h1, h2, if_false, if_true, hr] at hs ⊢ <;>
        simp_all
    by_cases h3 : kind = 3
    · rcases hr : readLengthPrefixed rest with ⟨⟨s, next⟩⟩ | _ <;>
        simp only [visitStep, h0, h1, h2, h3, if_false, if_true, hr] at hs ⊢ <;>
        simp_all
    by_cases h4 : kind = 4
    · rcases hr : readLengthPrefixed rest with ⟨⟨s, next⟩⟩ | _ <;>
        simp only [visitStep, h0, h1, h2, h3, h4, if_false, if_true, hr] at hs ⊢ <;>
        simp_all
    by_cases h5 : kind = 5
    · rcases hr : readU32 rest with ⟨⟨len, next⟩⟩ | _
      · rcases hl : loopN rec len next with ⟨⟨vs, rest2⟩⟩ | _
        · have hl2 : loopN rec2 len next = .ok (vs, rest2) := loopN_mono h hl
          simp only [visitStep, h0, h1, h2, h3, h4, h5, if_false, if_true, hr, hl,
            hl2] at hs ⊢
          exact hs
        · simp [visitStep, h0, h1, h2, h3, h4, h5, hr, hl] at hs
      · simp [visitStep, h0, h1, h2, h3, h4, h5, hr] at hs
    by_cases h6 : kind = 6
    · rcases hr : readU32 rest with ⟨⟨len, next⟩⟩ | _
      · rcases hl : loopM rec len next [] with ⟨⟨m, rest2⟩⟩ | _
        · have hl2 : loopM rec2 len next [] = .ok (m, rest2) := loopM_mono h hl
          simp only [visitStep, h0, h1, h2, h3, h4, h5, h6, if_false, if_true, hr,
            hl, hl2] at hs ⊢
          exact hs
        · simp [visitStep, h0, h1, h2, h3, h4, h5, h6, hr, hl] at hs
      · simp [visitStep, h0, h1, h2, h3, h4, h5, h6, hr] at hs
    exact absurd hs (by simp [visitStep, h0, h1, h2, h3, h4, h5, h6])

theorem visit_mono : ∀ {fuel fuel' : Nat}, fuel ≤ fuel' →
    ∀ {bytes : List Nat} {r : Value × List Nat},
    visit fuel bytes = .ok r → visit fuel' bytes = .ok r := by
  intro fuel
  induction fuel with
  | zero => intro fuel' hle bytes r hr; simp [visit] at hr
  | succ f ih =>
    intro fuel' hle bytes r hr
    obtain ⟨f2, rfl⟩ : ∃ f2, fuel' = f2 + 1 := ⟨fuel' - 1, by omega⟩
    simp only [visit] at hr ⊢
    exact visitStep_mono (fun b rr hb => ih (by omega) hb) hr

/-- A successful parse of `encodeValue x ++ t` can only return `(x, t)`,
whatever the fuel. -/
theorem visit_ok_on_encode {fuel : Nat} {x : Value} {t : List Nat}
    {r : Value × List Nat} (hwf : wfV x = true)
    (h : visit fuel (encodeValue x ++ t) = .ok r) : r = (x, t) := by
  have hbig : visit (max fuel (encodeValue x).length) (encodeValue x ++ t) = .ok r :=
    visit_mono (Nat.le_max_left _ _) h
  have henc := visit_encode (max fuel (encodeValue x).length) x t hwf
    (Nat.le_max_right _ _)
  rw [hbig] at henc
  simpa using henc

/-! ### No proper prefix of an encoding parses -/

theorem toU32_lt (n : Nat) : toU32 n < 4294967296 := Nat.mod_lt _ (by norm_num)

theorem loopN_nil_pos {rec : List Nat → PResult (Value × List Nat)}
    (hrec : rec [] = .panicked) {n : Nat} (h : 0 < n) :
    loopN rec n [] = .panicked := by
  obtain ⟨m, rfl⟩ : ∃ m, n = m + 1 := ⟨n - 1, by omega⟩
  simp [loopN, hrec]

theorem loopM_nil_pos {rec : List Nat → PResult (Value × List Nat)}
    {acc : List (List Nat × Value)} {n : Nat} (h : 0 < n) :
    loopM rec n [] acc = .panicked := by
  obtain ⟨m, rfl⟩ : ∃ m, n = m + 1 := ⟨n - 1, by omega⟩
  simp [loopM, readLengthPrefixed, readU32]

theorem loopN_cut {f : Nat} {xs : List Value} :
    ∀ {q r : List Nat},
    (∀ x ∈ xs, wfV x = true) →
    (∀ x ∈ xs, ∀ q2 r2, wfV x = true → encodeValue x = q2 ++ r2 → r2 ≠ [] →
      visit f q2 = .panicked) →
    encodeItems xs = q ++ r → r ≠ [] → loopN (visit f) xs.length q = .panicked := by
  induction xs with
  | nil =>
    intro q r _ _ heq hr
    simp only [encodeItems] at heq
    have : r = [] := by
      have := congrArg List.length heq
      simp at this
      exact List.eq_nil_of_length_eq_zero (by omega)
    exact absurd this hr
  | cons x xs ih =>
    intro q r hwf hcut heq hr
    have hwx : wfV x = true := hwf x (by simp)
    simp only [encodeItems] at heq
    rcases List.append_eq_append_iff.mp heq with ⟨t, hq, ht⟩ | ⟨t, hx, htr⟩
    · -- q = encodeValue x ++ t and encodeItems xs = t ++ r
      subst hq
      simp only [List.length_cons, loopN]
      rcases hv : visit f (encodeValue x ++ t) with ⟨pr⟩ | _
      · obtain rfl : pr = (x, t) := visit_ok_on_encode hwx hv
        have hrec : loopN (visit f) xs.length t = .panicked :=
          ih (fun y hy => hwf y (by simp [hy]))
            (fun y hy => hcut y (by simp [hy])) ht hr
        simp [hrec]
      · simp
    · -- encodeValue x = q ++ t and r = t ++ encodeItems xs
      by_cases hte : t = []
      · subst hte
        simp only [List.append_nil] at hx
        subst hx
        simp only [List.nil_append] at htr
        have hxs : xs ≠ [] := by
          intro hcon
          rw [hcon] at htr
          simp [encodeItems] at htr
          exact hr (htr ▸ rfl)
        simp only [List.length_cons, loopN]
        rcases hv : visit f (encodeValue x) with ⟨pr⟩ | _
        · have hv2 : visit f (encodeValue x ++ []) = .ok pr := by simpa using hv
          obtain rfl : pr = (x, []) := visit_ok_on_encode hwx hv2
          have hrec : loopN (visit f) xs.length [] = .panicked :=
            loopN_nil_pos (visit_nil f) (by cases xs with
              | nil => exact absurd rfl hxs
              | cons a b => simp)
          simp [hrec]
        · simp
      · have hq : visit f q = .panicked := hcut x (by simp) q t hwx hx hte
        simp only [List.length_cons, loopN]
        simp [hq]

theorem loopM_cut {f : Nat} {m : List (List Nat × Value)} :
    ∀ {q r : List Nat} {acc : List (List Nat × Value)},
    (∀ e ∈ m, utf8Valid e.1 = true ∧ e.1.length < 4294967296 ∧ wfV e.2 = true) →
    (∀ e ∈ m, ∀ q2 r2, wfV e.2 = true → encodeValue e.2 = q2 ++ r2 → r2 ≠ [] →
      visit f q2 = .panicked) →
    encodeEntries m = q ++ r → r ≠ [] → loopM (visit f) m.length q acc = .panicked := by
  induction m with
  | nil =>
    intro q r acc _ _ heq hr
    simp only [encodeEntries] at heq
    have : r = [] := by
      have := congrArg List.length heq
      simp at this
      exact List.eq_nil_of_length_eq_zero (by omega)
    exact absurd this hr
  | cons p m ih =>
    intro q r acc hwf hcut heq hr
    obtain ⟨k, v⟩ := p
    obtain ⟨hk1, hk2, hwv⟩ := hwf (k, v) (by simp)
    have hklen : toU32 k.length = k.length := toU32_eq_of_lt hk2
    simp only [encodeEntries] at heq
    rw [List.append_assoc, List.append_assoc] at heq
    rcases List.append_eq_append_iff.mp heq with ⟨t, hq, ht⟩ | ⟨t, hW, htr⟩
    · -- q = writeU32 (toU32 k.length) ++ t, and k ++ (enc v ++ encM m) = t ++ r
      subst hq
      rcases List.append_eq_append_iff.mp ht with ⟨u, htu, hu⟩ | ⟨u, hk, hur⟩
      · -- t = k ++ u, enc v ++ encM m = u ++ r
        subst htu
        have hread : readLengthPrefixed (writeU32 (toU32 k.length) ++ (k ++ u)) =
            .ok (k, u) := by
          simp only [readLengthPrefixed, readU32_writeU32, hklen,
            Nat.mod_eq_of_lt hk2]
          rw [if_pos (by simp)]
          rw [List.take_left, List.drop_left]
        rcases List.append_eq_append_iff.mp hu with ⟨w, huw, hw⟩ | ⟨w, hv2, hwr⟩
        · -- u = enc v ++ w, encM m = w ++ r
          subst huw
          simp only [List.length_cons, loopM, hread, hk1, if_true]
          rcases hvv : visit f (encodeValue v ++ w) with ⟨pr⟩ | _
          · obtain rfl : pr = (v, w) := visit_ok_on_encode hwv hvv
            exact ih (fun e he => hwf e (by simp [he]))
              (fun e he => hcut e (by simp [he])) hw hr
          · simp
        · -- enc v = u ++ w, r = w ++ encM m
          by_cases hwe : w = []
          · subst hwe
            simp only [List.append_nil] at hv2
            subst hv2
            simp only [List.nil_append] at hwr
            have hm : m ≠ [] := by
              intro hcon
              rw [hcon] at hwr
              simp [encodeEntries] at hwr
              exact hr (hwr ▸ rfl)
            simp only [List.length_cons, loopM, hread, hk1, if_true]
            rcases hvv : visit f (encodeValue v) with ⟨pr⟩ | _
            · have hv3 : visit f (encodeValue v ++ []) = .ok pr := by simpa using hvv
              obtain rfl : pr = (v, []) := visit_ok_on_encode hwv hv3
              exact loopM_nil_pos (by cases m with
                | nil => exact absurd rfl hm
                | cons a b => simp)
            · simp
          · have hq : visit f u = .panicked := hcut (k, v) (by simp) u w hwv hv2 hwe
            simp only [List.length_cons, loopM, hread, hk1, if_true, hq]
      · -- k = t ++ u, r = u ++ (enc v ++ encM m)
        by_cases hue : u = []
        · subst hue
          simp only [List.append_nil] at hk
          subst hk
          simp only [List.nil_append] at hur
          -- q = writeU32 ++ k exactly; the value part is empty but r ≠ []
          have hread : readLengthPrefixed (writeU32 (toU32 k.length) ++ k) =
              .ok (k, []) := by
            simp only [readLengthPrefixed, readU32_writeU32, hklen,
              Nat.mod_eq_of_lt hk2]
            rw [if_pos (by simp)]
            simp [List.take_length, List.drop_length]
          simp only [List.length_cons, loopM, hread, hk1, if_true, visit_nil]
        · -- the key is cut: fewer than k.length bytes remain
          have htlen : t.length < k.length := by
            have := congrArg List.length hk
            simp only [List.length_append] at this
            have hu0 : 0 < u.length := by
              cases u with
              | nil => exact absurd rfl hue
              | cons a b => simp
            omega
          have hread : readLengthPrefixed (writeU32 (toU32 k.length) ++ t) =
              .panicked := by
            simp only [readLengthPrefixed, readU32_writeU32, hklen,
              Nat.mod_eq_of_lt hk2]
            rw [if_neg (by omega)]
          simp only [List.length_cons, loopM, hread]
    · -- writeU32 (toU32 k.length) = q ++ t
      by_cases hte : t = []
      · subst hte
        simp only [List.append_nil] at hW
        subst hW
        simp only [List.nil_append] at htr
        -- q is exactly the four length bytes; no key bytes remain
        by_cases hke : k = []
        · -- empty key parses, then the value parse hits the end of input
          subst hke
          have hread : readLengthPrefixed (writeU32 (toU32 0)) = .ok ([], []) := by
            simp [readLengthPrefixed, readU32, writeU32, toU32]
          have hu0 : utf8Valid ([] : List Nat) = true := rfl
          simp [loopM, hread, hu0, visit_nil]
        · have hk0 : 0 < k.length := by
            cases k with
            | nil => exact absurd rfl hke
            | cons a b => simp
          have hru : readU32 (writeU32 (toU32 k.length)) = .ok (k.length, []) := by
            have := readU32_writeU32 (toU32 k.length) []
            simpa [hklen, Nat.mod_eq_of_lt hk2] using this
          have hread : readLengthPrefixed (writeU32 (toU32 k.length)) = .panicked := by
            simp only [readLengthPrefixed, hru]
            rw [if_neg (by
              simp only [List.length_nil, Nat.le_zero]
              omega)]
          simp only [List.length_cons, loopM, hread]
      · have hqlen : q.length < 4 := by
          have := congrArg List.length hW
          simp only [List.length_append, writeU32_length] at this
          have ht0 : 0 < t.length := by
            cases t with
            | nil => exact absurd rfl hte
            | cons a b => simp
          omega
        have hread : readLengthPrefixed q = .panicked := by
          simp [readLengthPrefixed, readU32_short q hqlen]
        simp only [List.length_cons, loopM, hread]

/-- Parsing any proper (nonempty-remainder) prefix of a well-formed value
encoding panics, whatever the fuel. -/
theorem visit_encode_cut : ∀ (fuel : Nat) (v : Value) (q r : List Nat),
    wfV v = true → encodeValue v = q ++ r → r ≠ [] → visit fuel q = .panicked := by
  intro fuel
  induction fuel with
  | zero => intro v q r _ _ _; rfl
  | succ f ih =>
    intro v q r hwf heq hr
    have hrlen : 0 < r.length := by
      cases r with
      | nil => exact absurd rfl hr
      | cons a b => simp
    cases v with
    | null =>
      simp only [encodeValue] at heq
      cases q with
      | nil => exact visit_nil _
      | cons c q2 =>
        obtain ⟨-, h2⟩ := List.cons.inj heq
        have := congrArg List.length h2
        simp at this
        omega
    | boolean bo =>
      simp only [encodeValue] at heq
      cases q with
      | nil => exact visit_nil _
      | cons c q2 =>
        simp only [List.cons_append, List.cons.injEq] at heq
        obtain ⟨rfl, heq2⟩ := heq
        cases q2 with
        | nil => simp [visit, visitStep]
        | cons c2 q3 =>
          simp only [List.cons_append, List.cons.injEq] at heq2
          have := congrArg List.length heq2.2
          simp at this
          omega
    | number n =>
      simp only [encodeValue] at heq
      cases q with
      | nil => exact visit_nil _
      | cons c q2 =>
        simp only [List.cons_append, List.cons.injEq] at heq
        obtain ⟨rfl, heq2⟩ := heq
        have hlen : q2.length < 4 := by
          have := congrArg List.length heq2
          simp [writeU32_length] at this
          omega
        simp [visit, visitStep, readU32_short q2 hlen]
    | string s =>
      simp only [wfV, Bool.and_eq_true, decide_eq_true_eq] at hwf
      obtain ⟨hutf, hslen⟩ := hwf
      simp only [encodeValue] at heq
      cases q with
      | nil => exact visit_nil _
      | cons c q2 =>
        simp only [List.cons_append, List.cons.injEq] at heq
        obtain ⟨rfl, heq2⟩ := heq
        rcases List.append_eq_append_iff.mp heq2 with ⟨t, hq2, ht⟩ | ⟨t, hW, htr⟩
        · subst hq2
          have hsl : s.length = t.length + r.length := by
            rw [ht]; simp
          have hread : readLengthPrefixed (writeU32 (toU32 s.length) ++ t) =
              .panicked := by
            simp only [readLengthPrefixed, readU32_writeU32, toU32_eq_of_lt hslen,
              Nat.mod_eq_of_lt hslen]
            rw [if_neg (by omega)]
          simp [visit, visitStep, hread]
        · by_cases hte : t = []
          · subst hte
            simp only [List.append_nil] at hW
            subst hW
            simp only [List.nil_append] at htr
            have hs0 : 0 < s.length := by
              rw [← htr]; omega
            have hru : readU32 (writeU32 (toU32 s.length)) = .ok (s.length, []) := by
              have := readU32_writeU32 (toU32 s.length) []
              simpa [toU32_eq_of_lt hslen, Nat.mod_eq_of_lt hslen] using this
            have hread : readLengthPrefixed (writeU32 (toU32 s.length)) =
                .panicked := by
              simp only [readLengthPrefixed, hru]
              rw [if_neg (by
                simp only [List.length_nil, Nat.le_zero]
                omega)]
            simp [visit, visitStep, hread]
          · have hqlen : q2.length < 4 := by
              have := congrArg List.length hW
              simp only [List.length_append, writeU32_length] at this
              have ht0 : 0 < t.length := by
                cases t with
                | nil => exact absurd rfl hte
                | cons a b => simp
              omega
            simp [visit, visitStep, readLengthPrefixed, readU32_short q2 hqlen]
    | uint8Array bs =>
      simp only [wfV, Bool.and_eq_true, decide_eq_true_eq] at hwf
      obtain ⟨_, hslen⟩ := hwf
      simp only [encodeValue] at heq
      cases q with
      | nil => exact visit_nil _
      | cons c q2 =>
        simp only [List.cons_append, List.cons.injEq] at heq
        obtain ⟨rfl, heq2⟩ := heq
        rcases List.append_eq_append_iff.mp heq2 with ⟨t, hq2, ht⟩ | ⟨t, hW, htr⟩
        · subst hq2
          have hsl : bs.length = t.length + r.length := by
            rw [ht]; simp
          have hread : readLengthPrefixed (writeU32 (toU32 bs.length) ++ t) =
              .panicked := by
            simp only [readLengthPrefixed, readU32_writeU32, toU32_eq_of_lt hslen,
              Nat.mod_eq_of_lt hslen]
            rw [if_neg (by omega)]
          simp [visit, visitStep, hread]
        · by_cases hte : t = []
          · subst hte
            simp only [List.append_nil] at hW
            subst hW
            simp only [List.nil_append] at htr
            have hs0 : 0 < bs.length := by
              rw [← htr]; omega
            have hru : readU32 (writeU32 (toU32 bs.length)) = .ok (bs.length, []) := by
              have := readU32_writeU32 (toU32 bs.length) []
              simpa [toU32_eq_of_lt hslen, Nat.mod_eq_of_lt hslen] using this
            have hread : readLengthPrefixed (writeU32 (toU32 bs.length)) =
                .panicked := by
              simp only [readLengthPrefixed, hru]
              rw [if_neg (by
                simp only [List.length_nil, Nat.le_zero]
                omega)]
            simp [visit, visitStep, hread]
          · have hqlen : q2.length < 4 := by
              have := congrArg List.length hW
              simp only [List.length_append, writeU32_length] at this
              have ht0 : 0 < t.length := by
                cases t with
                | nil => exact absurd rfl hte
                | cons a b => simp
              omega
            simp [visit, visitStep, readLengthPrefixed, readU32_short q2 hqlen]
    | array xs =>
      simp only [wfV, Bool.and_eq_true, decide_eq_true_eq] at hwf
      obtain ⟨hxlen, hitems⟩ := hwf
      simp only [encodeValue] at heq
      cases q with
      | nil => exact visit_nil _
      | cons c q2 =>
        simp only [List.cons_append, List.cons.injEq] at heq
        obtain ⟨rfl, heq2⟩ := heq
        rcases List.append_eq_append_iff.mp heq2 with ⟨t, hq2, ht⟩ | ⟨t, hW, htr⟩
        · subst hq2
          have hread : readU32 (writeU32 (toU32 xs.length) ++ t) =
              .ok (xs.length, t) := by
            rw [readU32_writeU32, toU32_eq_of_lt hxlen, Nat.mod_eq_of_lt hxlen]
          have hloop : loopN (visit f) xs.length t = .panicked :=
            loopN_cut (fun x hx => wfItems_mem hitems hx)
              (fun x hx q2 r2 hwfx heqx hrx => ih x q2 r2 hwfx heqx hrx) ht hr
          simp [visit, visitStep, hread, hloop]
        · by_cases hte : t = []
          · subst hte
            simp only [List.append_nil] at hW
            subst hW
            simp only [List.nil_append] at htr
            have hxs : 0 < xs.length := by
              cases xs with
              | nil =>
                rw [show encodeItems [] = [] from rfl] at htr
                subst htr
                simp at hrlen
              | cons a b => simp
            have hru : readU32 (writeU32 (toU32 xs.length)) = .ok (xs.length, []) := by
              have := readU32_writeU32 (toU32 xs.length) []
              simpa [toU32_eq_of_lt hxlen, Nat.mod_eq_of_lt hxlen] using this
            have hloop : loopN (visit f) xs.length [] = .panicked :=
              loopN_nil_pos (visit_nil f) hxs
            simp [visit, visitStep, hru, hloop]
          · have hqlen : q2.length < 4 := by
              have := congrArg List.length hW
              simp only [List.length_append, writeU32_length] at this
              have ht0 : 0 < t.length := by
                cases t with
                | nil => exact absurd rfl hte
                | cons a b => simp
              omega
            simp [visit, visitStep, readU32_short q2 hqlen]
    | map m =>
      simp only [wfV, Bool.and_eq_true, decide_eq_true_eq] at hwf
      obtain ⟨⟨hmlen, hsorted⟩, hentries⟩ := hwf
      simp only [encodeValue] at heq
      cases q with
      | nil => exact visit_nil _
      | cons c q2 =>
        simp only [List.cons_append, List.cons.injEq] at heq
        obtain ⟨rfl, heq2⟩ := heq
        rcases List.append_eq_append_iff.mp heq2 with ⟨t, hq2, ht⟩ | ⟨t, hW, htr⟩
        · subst hq2
          have hread : readU32 (writeU32 (toU32 m.length) ++ t) =
              .ok (m.length, t) := by
            rw [readU32_writeU32, toU32_eq_of_lt hmlen, Nat.mod_eq_of_lt hmlen]
          have hloop : loopM (visit f) m.length t [] = .panicked :=
            loopM_cut (fun e he => wfEntries_mem hentries he)
              (fun e he q2 r2 hwfx heqx hrx => ih e.2 q2 r2 hwfx heqx hrx) ht hr
          simp [visit, visitStep, hread, hloop]
        · by_cases hte : t = []
          · subst hte
            simp only [List.append_nil] at hW
            subst hW
            simp only [List.nil_append] at htr
            have hms : 0 < m.length := by
              cases m with
              | nil =>
                rw [show encodeEntries [] = [] from rfl] at htr
                subst htr
                simp at hrlen
              | cons a b => simp
            have hru : readU32 (writeU32 (toU32 m.length)) = .ok (m.length, []) := by
              have := readU32_writeU32 (toU32 m.length) []
              simpa [toU32_eq_of_lt hmlen, Nat.mod_eq_of_lt hmlen] using this
            have hloop : loopM (visit f) m.length ([] : List Nat)
                ([] : List (List Nat × Value)) = .panicked :=
              loopM_nil_pos hms
            simp [visit, visitStep, hru, hloop]
          · have hqlen : q2.length < 4 := by
              have := congrArg List.length hW
              simp only [List.length_append, writeU32_length] at this
              have ht0 : 0 < t.length := by
                cases t with
                | nil => exact absurd rfl hte
                | cons a b => simp
              omega
            simp [visit, visitStep, readU32_short q2 hqlen]

/-! ### Decode-level helper facts -/

theorem decode_short (bytes : List Nat) (h : bytes.length < 4) :
    Packet.decode bytes = .panicked := by
  simp [Packet.decode, readU32_short bytes h]

theorem decode_bad_tag (b0 b1 b2 b3 t : Nat) (rest : List Nat) (h : 6 < t) :
    Packet.decode (b0 :: b1 :: b2 :: b3 :: t :: rest) = .panicked := by
  have h0 : t ≠ 0 := by omega
  have h1 : t ≠ 1 := by omega
  have h2 : t ≠ 2 := by omega
  have h3 : t ≠ 3 := by omega
  have h4 : t ≠ 4 := by omega
  have h5 : t ≠ 5 := by omega
  have h6 : t ≠ 6 := by omega
  simp [Packet.decode, readU32, visit, visitStep, h0, h1, h2, h3, h4, h5, h6]

theorem decode_invalid_utf8 (b0 b1 b2 b3 : Nat) :
    Packet.decode (b0 :: b1 :: b2 :: b3 :: 3 :: 1 :: 0 :: 0 :: 0 :: [255]) =
      .panicked := by
  have hread : readLengthPrefixed [1, 0, 0, 0, 255] = .ok ([255], []) := by
    simp [readLengthPrefixed, readU32]
  have hutf : utf8Valid [255] = false := rfl
  simp [Packet.decode, readU32, visit, visitStep, hread, hutf]

/-! ### The claims -/

/-- Any `Uint8Array` whose length is exactly `2^32` round-trips to a panic:
the length field wraps to `0`, the decoder reads an empty buffer and then
finds the `2^32` payload bytes left over. -/
theorem decode_encode_overlong (R : List Nat) (hRlen : R.length = 4294967296) :
    Packet.decode ((Packet.encode ⟨0, true, .uint8Array R⟩).drop 4) =
      .panicked := by
  have hbody : encodeBody ⟨0, true, .uint8Array R⟩ =
      0 :: 0 :: 0 :: 0 :: 4 :: 0 :: 0 :: 0 :: 0 :: R := by
    simp [encodeBody, encodeValue, idCell, writeU32, toU32, hRlen]
  rw [encode_drop_four, hbody]
  have hRne : R.isEmpty = false := by
    cases R with
    | nil => simp at hRlen
    | cons a b => rfl
  have hrlp : readLengthPrefixed (0 :: 0 :: 0 :: 0 :: R) = .ok ([], R) := by
    simp [readLengthPrefixed, readU32]
  have hvisit : ∀ f : Nat, visit (f + 1) (4 :: 0 :: 0 :: 0 :: 0 :: R) =
      .ok (.uint8Array [], R) := fun f => by
    simp [visit, visitStep, hrlp]
  simp [Packet.decode, readU32, hvisit, hRne]

/-- C1 (counterexample): the round trip fails on a `Uint8Array` of `2^32`
bytes, a legitimate Rust `Vec<u8>`.  Its length wraps to `0` in the `u32`
length field, so the decoder reads an empty buffer, finds `2^32` leftover
bytes, and panics instead of returning the original packet. -/
theorem spec_c1_counterexample :
    Packet.decode ((Packet.encode
        ⟨0, true, .uint8Array (List.replicate 4294967296 0)⟩).drop 4) ≠
      .ok ⟨0, true, .uint8Array (List.replicate 4294967296 0)⟩ := by
  intro hcon
  rw [decode_encode_overlong (List.replicate 4294967296 0)
    (by rw [List.length_replicate])] at hcon
  exact PResult.noConfusion hcon

/-- C1 (amended): for every well-formed `Value` tree — valid UTF-8 strings and
keys, `i32` numbers, ascending map keys, and every string/buffer/array/map
length below `2^32` — and every id below `2^31`, encoding with `Packet.encode`
and decoding the body after stripping the 4-byte frame prefix returns the
original packet. -/
theorem spec_c1_round_trip (id : Nat) (rq : Bool) (v : Value)
    (hid : id < 2147483648) (hwf : wfV v = true) :
    Packet.decode ((Packet.encode ⟨id, rq, v⟩).drop 4) = .ok ⟨id, rq, v⟩ := by
  rw [encode_drop_four, decode_encodeBody id rq v hwf, Nat.mod_eq_of_lt hid]

/-- C1 (witness): a concrete nested round trip through encode and decode. -/
theorem spec_c1_round_trip_witness :
    Packet.decode ((Packet.encode ⟨7, true,
        .array [.string [104, 105], .number (-1),
          .map [([97], .boolean true), ([98], .uint8Array [0, 255])]]⟩).drop 4) =
      .ok ⟨7, true, .array [.string [104, 105], .number (-1),
        .map [([97], .boolean true), ([98], .uint8Array [0, 255])]]⟩ :=
  spec_c1_round_trip 7 true _ (by norm_num) (by rfl)

/-- C2 (counterexample): `[2, 0, 0, 0]` is a proper non-empty prefix of the
valid encoded body of `Packet{id: 1, isRequest: true, value: Null}`, and
decoding it panics (`PResult.panicked`) — it does not return an error value,
because `Packet::decode` has no error-return path at all. -/
theorem spec_c2_counterexample :
    encodeBody ⟨1, true, .null⟩ = [2, 0, 0, 0] ++ [0] ∧
      Packet.decode [2, 0, 0, 0] = .panicked :=
  ⟨rfl, rfl⟩

/-- C2 (amended): decoding any proper non-empty prefix of a valid encoded body
(the body of a well-formed packet) never succeeds: the decoder panics. -/
theorem spec_c2_truncation (id : Nat) (rq : Bool) (v : Value) (a b : List Nat)
    (hwf : wfV v = true) (heq : encodeBody ⟨id, rq, v⟩ = a ++ b)
    (ha : a ≠ []) (hb : b ≠ []) : Packet.decode a = .panicked := by
  rcases a with _ | ⟨x0, _ | ⟨x1, _ | ⟨x2, _ | ⟨x3, a4⟩⟩⟩⟩
  · exact absurd rfl ha
  · exact decode_short _ (by simp)
  · exact decode_short _ (by simp)
  · exact decode_short _ (by simp)
  · simp only [encodeBody, writeU32, List.cons_append, List.nil_append,
      List.cons.injEq] at heq
    obtain ⟨h0, h1, h2, h3, h4⟩ := heq
    by_cases h4e : a4 = []
    · subst h4e
      simp [Packet.decode, readU32, visit_nil]
    · have hv : ∀ F : Nat, visit F a4 = .panicked := fun F =>
        visit_encode_cut F v a4 b hwf h4 hb
      simp [Packet.decode, readU32, hv]

/-- C2 (witness): the amended truncation theorem at the concrete prefix. -/
theorem spec_c2_truncation_witness : Packet.decode [2, 0, 0, 0] = .panicked :=
  spec_c2_truncation 1 true .null [2, 0, 0, 0] [0] rfl rfl (by simp) (by simp)

/-- C3 (counterexample): on the body `[0,0,0,0,7]` (invalid tag `7`),
`Packet::decode` panics; it does not return a typed decode-error value (its
Rust signature returns `Packet`, not `Result`). -/
theorem spec_c3_counterexample : Packet.decode [0, 0, 0, 0, 7] = .panicked := rfl

/-- C3 (amended): `Packet::decode` is a pure function of the body buffer, and
on malformed input — a buffer too short for the id cell, an invalid tag byte,
or invalid UTF-8 in a string payload — it fails by panicking instead of
succeeding; no typed error value is returned to the caller. -/
theorem spec_c3_malformed_panics :
    (∀ bytes : List Nat, bytes.length < 4 → Packet.decode bytes = .panicked) ∧
    (∀ (b0 b1 b2 b3 t : Nat) (rest : List Nat), 6 < t →
      Packet.decode (b0 :: b1 :: b2 :: b3 :: t :: rest) = .panicked) ∧
    (∀ b0 b1 b2 b3 : Nat,
      Packet.decode (b0 :: b1 :: b2 :: b3 :: 3 :: 1 :: 0 :: 0 :: 0 :: [255]) =
        .panicked) :=
  ⟨decode_short, fun b0 b1 b2 b3 t rest h => decode_bad_tag b0 b1 b2 b3 t rest h,
    decode_invalid_utf8⟩

/-- C3 (witness): the three malformed classes at concrete inputs. -/
theorem spec_c3_malformed_panics_witness :
    Packet.decode [9, 9] = .panicked ∧
      Packet.decode [0, 0, 0, 0, 7, 1] = .panicked ∧
      Packet.decode [0, 0, 0, 0, 3, 1, 0, 0, 0, 255] = .panicked :=
  ⟨spec_c3_malformed_panics.1 [9, 9] (by simp),
    spec_c3_malformed_panics.2.1 0 0 0 0 7 [1] (by omega),
    spec_c3_malformed_panics.2.2 0 0 0 0⟩

/-- C4: for ids below `2^31`, the first four body bytes are the little-endian
cell `(id << 1) | (0 if request else 1)`; the decoder's inverse (shift right
for the id, low bit for the direction) recovers both exactly, and the packing
is injective on that domain. -/
theorem spec_c4_id_packing :
    (∀ (id : Nat) (rq : Bool) (v : Value), id < 2147483648 →
      (encodeBody ⟨id, rq, v⟩).take 4 =
        writeU32 ((id <<< 1) ||| (if rq then 0 else 1))) ∧
    (∀ (id : Nat) (rq : Bool), id < 2147483648 →
      idCell id rq >>> 1 = id ∧ ((idCell id rq &&& 1) == 0) = rq) ∧
    (∀ (id1 id2 : Nat) (rq1 rq2 : Bool), id1 < 2147483648 → id2 < 2147483648 →
      idCell id1 rq1 = idCell id2 rq2 → id1 = id2 ∧ rq1 = rq2) := by
  have hcell : ∀ (id : Nat) (rq : Bool), id < 2147483648 →
      idCell id rq = (id <<< 1) ||| (if rq then 0 else 1) := by
    intro id rq hid
    have hsh : id <<< 1 = 2 * id := by rw [Nat.shiftLeft_eq]; ring
    have hmod : (id <<< 1) % 4294967296 = id <<< 1 := by
      rw [hsh]; exact Nat.mod_eq_of_lt (by omega)
    cases rq with
    | true => simp [idCell, hmod, Nat.or_zero]
    | false => simp [idCell, hmod]
  refine ⟨?_, ?_, ?_⟩
  · intro id rq v hid
    rw [show encodeBody ⟨id, rq, v⟩ = writeU32 (idCell id rq) ++ encodeValue v
        from rfl]
    rw [List.take_left' (writeU32_length _), hcell id rq hid]
  · intro id rq hid
    exact ⟨by rw [idCell_shiftRight, Nat.mod_eq_of_lt hid], idCell_and_one id rq⟩
  · intro id1 id2 rq1 rq2 h1 h2 heq
    have ha := idCell_shiftRight id1 rq1
    have hb := idCell_shiftRight id2 rq2
    have hc := idCell_and_one id1 rq1
    have hd := idCell_and_one id2 rq2
    rw [heq] at ha hc
    constructor
    · rw [hb] at ha
      rw [Nat.mod_eq_of_lt h2, Nat.mod_eq_of_lt h1] at ha
      exact ha.symm
    · rw [hd] at hc
      exact hc.symm

/-- C4 (witness): packing and unpacking at a concrete id and direction. -/
theorem spec_c4_id_packing_witness :
    (encodeBody ⟨5, false, .null⟩).take 4 =
        writeU32 ((5 <<< 1) ||| (if false then 0 else 1)) ∧
      (idCell 5 false >>> 1 = 5 ∧ ((idCell 5 false &&& 1) == 0) = false) ∧
      (5 = 5 ∧ false = false) :=
  ⟨spec_c4_id_packing.1 5 false .null (by norm_num),
    spec_c4_id_packing.2.1 5 false (by norm_num),
    spec_c4_id_packing.2.2 5 5 false false (by norm_num) (by norm_num) rfl⟩

/-- C5: a map built by inserting keys in any order always has its entry list —
the order `Packet::encode` serializes — in ascending lexicographic byte order,
and two insertion sequences that are permutations of each other with distinct
keys produce byte-identical packet encodings. -/
theorem spec_c5_map_key_order :
    (∀ l : List (List Nat × Value), keysSorted (fromIter l) = true) ∧
    (∀ (id : Nat) (rq : Bool) (l1 l2 : List (List Nat × Value)),
      l1.Perm l2 → (l1.map Prod.fst).Nodup →
      Packet.encode ⟨id, rq, .map (fromIter l1)⟩ =
        Packet.encode ⟨id, rq, .map (fromIter l2)⟩) :=
  ⟨fromIter_keysSorted,
    fun _ _ _ _ hp hnd => by rw [fromIter_perm hp hnd]⟩

/-- C5 (witness): two insertion orders of the same two entries give a sorted
entry list and byte-identical encodings. -/
theorem spec_c5_map_key_order_witness :
    keysSorted (fromIter [([98], Value.null), ([97], Value.number 1)]) = true ∧
      Packet.encode ⟨1, true,
          .map (fromIter [([98], Value.null), ([97], Value.number 1)])⟩ =
        Packet.encode ⟨1, true,
          .map (fromIter [([97], Value.number 1), ([98], Value.null)])⟩ :=
  ⟨spec_c5_map_key_order.1 _,
    spec_c5_map_key_order.2 1 true _ _
      (List.Perm.swap ([97], Value.number 1) ([98], Value.null) [])
      (by decide)⟩

/-- C6 (counterexample): for a `Uint8Array` of `2^32` bytes the body is
`2^32 + 9` bytes long, but the 4-byte frame prefix reads back as `9`, not the
length of what follows. -/
theorem spec_c6_counterexample :
    readU32 (Packet.encode
        ⟨0, true, .uint8Array (List.replicate 4294967296 0)⟩) ≠
      .ok (((Packet.encode
          ⟨0, true, .uint8Array (List.replicate 4294967296 0)⟩).drop 4).length,
        (Packet.encode
          ⟨0, true, .uint8Array (List.replicate 4294967296 0)⟩).drop 4) := by
  have hgen : ∀ R : List Nat, R.length = 4294967296 →
      readU32 (Packet.encode ⟨0, true, .uint8Array R⟩) ≠
        .ok (((Packet.encode ⟨0, true, .uint8Array R⟩).drop 4).length,
          (Packet.encode ⟨0, true, .uint8Array R⟩).drop 4) := by
    intro R hRlen hcon
    rw [encode_drop_four] at hcon
    have hblen : (encodeBody ⟨0, true, .uint8Array R⟩).length = 4294967305 := by
      simp [encodeBody, encodeValue, writeU32, hRlen]
    have hread : readU32 (Packet.encode ⟨0, true, .uint8Array R⟩) =
        .ok (9, encodeBody ⟨0, true, .uint8Array R⟩) := by
      simp only [Packet.encode]
      rw [readU32_writeU32, hblen]
      norm_num [toU32]
    rw [hread] at hcon
    have h9 : 9 = (encodeBody ⟨0, true, .uint8Array R⟩).length := by
      have := hcon
      simp only [PResult.ok.injEq, Prod.mk.injEq] at this
      exact this.1
    rw [hblen] at h9
    norm_num at h9
  exact hgen (List.replicate 4294967296 0) (by rw [List.length_replicate])

/-- C6 (amended): whenever the body length fits the `u32` length field, the
4-byte frame prefix of `Packet.encode` reads back as exactly the byte length
of everything that follows it, and what follows is exactly the id cell plus
the recursive value encoding. -/
theorem spec_c6_frame_length (id : Nat) (rq : Bool) (v : Value)
    (hlen : (encodeBody ⟨id, rq, v⟩).length < 4294967296) :
    readU32 (Packet.encode ⟨id, rq, v⟩) =
      .ok ((encodeBody ⟨id, rq, v⟩).length, encodeBody ⟨id, rq, v⟩) ∧
    encodeBody ⟨id, rq, v⟩ = writeU32 (idCell id rq) ++ encodeValue v ∧
    (Packet.encode ⟨id, rq, v⟩).drop 4 = encodeBody ⟨id, rq, v⟩ := by
  refine ⟨?_, rfl, encode_drop_four _⟩
  simp only [Packet.encode]
  rw [readU32_writeU32, toU32_eq_of_lt hlen, Nat.mod_eq_of_lt hlen]

/-- C6 (witness): the frame prefix of a small concrete packet. -/
theorem spec_c6_frame_length_witness :
    readU32 (Packet.encode ⟨1, true, .null⟩) =
      .ok ((encodeBody ⟨1, true, .null⟩).length, encodeBody ⟨1, true, .null⟩) ∧
    encodeBody ⟨1, true, .null⟩ = writeU32 (idCell 1 true) ++ encodeValue .null ∧
    (Packet.encode ⟨1, true, .null⟩).drop 4 = encodeBody ⟨1, true, .null⟩ :=
  spec_c6_frame_length 1 true .null (by decide)

/-- C7: after the top-level value is parsed, leftover bytes make `Packet.decode`
fail (the `panic!("Invalid packet")` branch), and an out-of-range tag byte on
the top-level value also makes it fail; neither input is accepted. -/
theorem spec_c7_leftover_and_tag :
    (∀ (b0 b1 b2 b3 : Nat) (body rest : List Nat) (v : Value),
      visit (body.length + 5) body = .ok (v, rest) → rest ≠ [] →
      Packet.decode (b0 :: b1 :: b2 :: b3 :: body) = .panicked) ∧
    (∀ (b0 b1 b2 b3 t : Nat) (rest : List Nat), 6 < t →
      Packet.decode (b0 :: b1 :: b2 :: b3 :: t :: rest) = .panicked) := by
  constructor
  · intro b0 b1 b2 b3 body rest v hvisit hrest
    have hfuel : (b0 :: b1 :: b2 :: b3 :: body).length + 1 = body.length + 5 := by
      simp only [List.length_cons]
    simp [Packet.decode, readU32, hfuel, hvisit, List.isEmpty_iff, hrest]
  · exact fun b0 b1 b2 b3 t rest h => decode_bad_tag b0 b1 b2 b3 t rest h

/-- C7 (witness): a leftover byte after a parsed `Null`, and top-level tag 9. -/
theorem spec_c7_leftover_and_tag_witness :
    Packet.decode [0, 0, 0, 0, 0, 0] = .panicked ∧
      Packet.decode [0, 0, 0, 0, 9] = .panicked :=
  ⟨spec_c7_leftover_and_tag.1 0 0 0 0 [0, 0] [0] .null rfl (by simp),
    spec_c7_leftover_and_tag.2 0 0 0 0 9 [] (by omega)⟩

/-- C8: every `i32` number encodes as tag byte 2 followed by its
two's-complement bit pattern as a little-endian `u32` cell, and parsing that
encoding recovers exactly the same number — no truncation anywhere in the
32-bit signed range. -/
theorem spec_c8_number_i32 (n : Int) (rest : List Nat) (fuel : Nat)
    (h1 : -2147483648 ≤ n) (h2 : n < 2147483648) (hf : 5 ≤ fuel) :
    encodeValue (.number n) = 2 :: writeU32 (intToU32 n) ∧
    visit fuel (encodeValue (.number n) ++ rest) = .ok (.number n, rest) := by
  refine ⟨rfl, ?_⟩
  apply visit_encode fuel (.number n) rest
  · simp only [wfV, Bool.and_eq_true, decide_eq_true_eq]
    exact ⟨h1, h2⟩
  · simp only [encodeValue, writeU32]
    simp
    omega

/-- C8 (witness): the number `-1` round-trips through its `u32` cell. -/
theorem spec_c8_number_i32_witness :
    encodeValue (.number (-1)) = 2 :: writeU32 (intToU32 (-1)) ∧
      visit 5 (encodeValue (.number (-1)) ++ []) = .ok (.number (-1), []) :=
  spec_c8_number_i32 (-1) [] 5 (by norm_num) (by norm_num) (by norm_num)

/-- C9: the decoder accepts any byte as a Boolean payload — `Boolean(b != 0)` —
so every non-zero byte decodes to `true` and only `0` decodes to `false`,
even though the encoder itself only ever emits `0` or `1`. -/
theorem spec_c9_boolean_leniency :
    (∀ b : Nat, Packet.decode [0, 0, 0, 0, 1, b] =
      .ok ⟨0, true, .boolean (b != 0)⟩) ∧
    encodeValue (.boolean true) = [1, 1] ∧
    encodeValue (.boolean false) = [1, 0] := by
  refine ⟨fun b => ?_, rfl, rfl⟩
  simp [Packet.decode, readU32, visit, visitStep]

/-- C10: the id field is a full `u32`; encoding shifts it left by one inside
the 32-bit cell, silently discarding the high bit, so decode returns
`id % 2^31` while the direction flag survives; the id round-trips exactly
only below `2^31`. -/
theorem spec_c10_id_wrap (id : Nat) (rq : Bool) (v : Value)
    (_hid : id < 4294967296) (hwf : wfV v = true) :
    Packet.decode ((Packet.encode ⟨id, rq, v⟩).drop 4) =
      .ok ⟨id % 2147483648, rq, v⟩ := by
  rw [encode_drop_four, decode_encodeBody id rq v hwf]

/-- C10 (witness): id `2^31` comes back as `0` with the direction intact. -/
theorem spec_c10_id_wrap_witness :
    Packet.decode ((Packet.encode ⟨2147483648, true, .null⟩).drop 4) =
      .ok ⟨2147483648 % 2147483648, true, .null⟩ :=
  spec_c10_id_wrap 2147483648 true .null (by norm_num) rfl
